import Mathlib

/-!
Verification of the AVL-tree / hash-table record store
(`src/Lab_3-1.cpp`, `src/Lab_3-2.cpp`).

The C++ data structures are shallowly embedded: raw `tNode*` pointers become
an inductive tree type, the cached `int height` field is carried in each
node, and every private recursive method of class `AVL` becomes a Lean
function with the same recursion structure.  Machine integers are modelled
by `Nat`/`Int` (heights are always non-negative in the source, so `Nat`
suffices; `getBalance` returns an `Int` as in the source).
-/

/-- Decide `s₁ < s₂` on strings through the character lists, as Lean core
does; the library's iterator-based instance is not reducible by the kernel,
which would block concrete evaluation of the embedded operations. -/
instance (priority := 10000) strDecLt (s₁ s₂ : String) : Decidable (s₁ < s₂) :=
  letI : Decidable (s₁.toList < s₂.toList) := List.Lex.decidableRel (· < ·) s₁.toList s₂.toList
  decidable_of_iff (s₁.toList < s₂.toList) (@String.lt_iff_toList_lt s₁ s₂).symm

namespace Lab3

/-- The `person` struct of `Lab_3-2.cpp`: three string fields.
`person()` default-constructs every field to `"NONE"`. -/
structure person where
  first_name : String
  last_name : String
  number : String
deriving DecidableEq, Repr

/-- `person()` — the default-constructed sentinel returned by
`AVL::retrieveRec` on a missing key. -/
def defaultPerson : person := ⟨"NONE", "NONE", "NONE"⟩

/-- The `tNode` struct: left child, stored value, right child and the cached
`height` field (a new leaf is constructed with height 1).  `nil` models the
null pointer. -/
inductive Tree (α : Type) where
  | nil : Tree α
  | node (left : Tree α) (val : α) (right : Tree α) (height : Nat) : Tree α
deriving DecidableEq, Repr

namespace Tree

variable {α : Type}

/-- `AVL::height`: 0 for a null pointer, otherwise the cached height field. -/
def height : Tree α → Nat
  | nil => 0
  | node _ _ _ h => h

/-- Number of nodes of a tree (used as a termination measure / fuel bound). -/
def size : Tree α → Nat
  | nil => 0
  | node l _ r _ => size l + size r + 1

/-- In-order list of the stored values (left, node, right). -/
def vals : Tree α → List α
  | nil => []
  | node l v r _ => vals l ++ v :: vals r

/-- `AVL::getBalance`: height of left child minus height of right child,
0 for a null pointer. -/
def getBalance : Tree α → Int
  | nil => 0
  | node l _ r _ => (height l : Int) - (height r : Int)

/-- `AVL::rotateRight`: promote the left child, recomputing the two affected
cached heights from the (already settled) children, exactly as the source
does.  The source dereferences `y->left` unconditionally; that case is
unreachable in every verified use, and the model returns the input tree
unchanged there. -/
def rotateRight : Tree α → Tree α
  | node (node a x b _) v r _ =>
      let yr := node b v r (1 + max (height b) (height r))
      node a x yr (1 + max (height a) (height yr))
  | t => t

/-- `AVL::rotateLeft`, the mirror image of `rotateRight`. -/
def rotateLeft : Tree α → Tree α
  | node l v (node b y c _) _ =>
      let xl := node l v b (1 + max (height l) (height b))
      node xl y c (1 + max (height xl) (height c))
  | t => t

/-- `AVL::balance`: the four imbalance cases.  A left-heavy node whose left
child is not right-heavy gets a single right rotation, otherwise a
left-right double rotation; the right-heavy cases mirror this. -/
def balance : Tree α → Tree α
  | nil => nil
  | node l v r h =>
      let bf : Int := (height l : Int) - (height r : Int)
      if 1 < bf then
        if 0 ≤ getBalance l then rotateRight (node l v r h)
        else rotateRight (node (rotateLeft l) v r h)
      else if bf < -1 then
        if getBalance r ≤ 0 then rotateLeft (node l v r h)
        else rotateLeft (node l v (rotateRight r) h)
      else node l v r h

/-- The common tail of the recursive insert/remove methods:
`node->height = 1 + max(height(left), height(right)); return balance(node);`. -/
def rebalance (l : Tree α) (v : α) (r : Tree α) : Tree α :=
  balance (node l v r (1 + max (height l) (height r)))

/-- The tail of the remove methods applied after the one-or-no-child splice
(`*node = *temp`): if the spliced-in subtree is null return null, else
recompute its cached height from its children and balance it. -/
def refix : Tree α → Tree α
  | nil => nil
  | node l v r _ => rebalance l v r

end Tree

open Tree

/-- `AVL::insertRec` of `Lab_3-2.cpp`: descend by comparing the `number`
field, create a leaf of height 1 at a null position, report a duplicate and
return the node unchanged (skipping the height update and balance) when the
key is already present, and otherwise update the cached height bottom-up and
balance. -/
def insertRec : Tree person → person → Tree person
  | .nil, v => .node .nil v .nil 1
  | .node l w r h, v =>
      if v.number < w.number then rebalance (insertRec l v) w r
      else if w.number < v.number then rebalance l w (insertRec r v)
      else .node l w r h

/-- `AVL::insert`: `head = insertRec(head, v)`. -/
def insert (t : Tree person) (v : person) : Tree person := insertRec t v

/-- `AVL::retrieveRec`: returns the default-constructed `person()` on a null
pointer, otherwise descends by comparing the `number` field. -/
def retrieveRec : Tree person → String → person
  | .nil, _ => defaultPerson
  | .node l w r _, k =>
      if k = w.number then w
      else if k < w.number then retrieveRec l k
      else retrieveRec r k

/-- `AVL::retrieve`: `retrieveRec(head, t)`. -/
def retrieve (t : Tree person) (k : String) : person := retrieveRec t k

/-- `AVL::findMin`: walk to the leftmost node and return its value.  The
source dereferences its argument unconditionally, so it is only meaningful
on non-null trees; the model returns the sentinel on `nil`. -/
def findMin : Tree person → person
  | .nil => defaultPerson
  | .node l v _ _ =>
      match l with
      | .nil => v
      | .node a b c d => findMin (.node a b c d)

/-- `AVL::removeRec`: descend by key; on a match splice out a node with at
most one child (`*node = *temp`), or replace the value by the in-order
successor of the right subtree and remove the successor key from the right
subtree; on the way out, recompute the cached height and balance. -/
def removeRec : Tree person → String → Tree person
  | .nil, _ => .nil
  | .node l w r _, k =>
      if k < w.number then rebalance (removeRec l k) w r
      else if w.number < k then rebalance l w (removeRec r k)
      else
        match l, r with
        | .nil, .nil => .nil
        | .nil, .node a b c d => refix (.node a b c d)
        | .node a b c d, .nil => refix (.node a b c d)
        | .node a b c d, .node e f g k2 =>
            let m := findMin (.node e f g k2)
            rebalance (.node a b c d) m (removeRec (.node e f g k2) m.number)

/-- `AVL::remove`: `head = removeRec(head, t)`. -/
def remove (t : Tree person) (k : String) : Tree person := removeRec t k

/-- `AVL::removeRecFL`, written with explicit fuel because the successor
removal recurses on the already-processed right subtree (the source's
recursion terminates because that subtree never grows; `size t < fuel`
always holds in the verified wrapper, so the fuel-exhausted branch is
unreachable there).  The method first recurses into both children, then
applies the splice-or-successor removal when the first and last name match,
and finally recomputes the cached height and balances. -/
def removeRecFLF : Nat → Tree person → String → String → Tree person
  | 0, t, _, _ => t
  | _ + 1, .nil, _, _ => .nil
  | fuel + 1, .node l v r _, fn, ln =>
      let l' := removeRecFLF fuel l fn ln
      let r' := removeRecFLF fuel r fn ln
      if fn = v.first_name ∧ ln = v.last_name then
        match l', r' with
        | .nil, .nil => .nil
        | .nil, .node a b c d => refix (.node a b c d)
        | .node a b c d, .nil => refix (.node a b c d)
        | .node a b c d, .node e f g k2 =>
            let m := findMin (.node e f g k2)
            rebalance (.node a b c d) m
              (removeRecFLF fuel (.node e f g k2) m.first_name m.last_name)
      else rebalance l' v r'

/-- `AVL::removeFL`: `head = removeRecFL(head, fn, ln)`. -/
def removeFL (t : Tree person) (fn ln : String) : Tree person :=
  removeRecFLF (t.size + 1) t fn ln

namespace Tree

variable {α : Type}

/-- Every node's cached height field equals 1 + max of its children's
heights (the second half of the spec's structural invariant). -/
def HeightsOk : Tree α → Prop
  | nil => True
  | node l _ r h => HeightsOk l ∧ HeightsOk r ∧ h = 1 + max (height l) (height r)

/-- Every node's balance factor (left height minus right height, on the
cached heights) lies in {-1, 0, 1}. -/
def BalancedOk : Tree α → Prop
  | nil => True
  | node l _ r _ =>
      BalancedOk l ∧ BalancedOk r ∧ ((height l : Int) - (height r : Int)).natAbs ≤ 1

/-- The full AVL structural invariant claimed by the spec: correct cached
heights and balance factors in {-1, 0, 1} at every node. -/
def AvlOk (t : Tree α) : Prop := HeightsOk t ∧ BalancedOk t

def decHeightsOk : (t : Tree α) → Decidable (HeightsOk t)
  | nil => isTrue trivial
  | node l _ r h =>
      letI := decHeightsOk l
      letI := decHeightsOk r
      decidable_of_iff (HeightsOk l ∧ HeightsOk r ∧ h = 1 + max (height l) (height r))
        Iff.rfl

instance : ∀ t : Tree α, Decidable (HeightsOk t) := decHeightsOk

def decBalancedOk : (t : Tree α) → Decidable (BalancedOk t)
  | nil => isTrue trivial
  | node l _ r _ =>
      letI := decBalancedOk l
      letI := decBalancedOk r
      decidable_of_iff
        (BalancedOk l ∧ BalancedOk r ∧ ((height l : Int) - (height r : Int)).natAbs ≤ 1)
        Iff.rfl

instance : ∀ t : Tree α, Decidable (BalancedOk t) := decBalancedOk

instance (t : Tree α) : Decidable (AvlOk t) := instDecidableAnd

end Tree

/-- The binary-search-tree ordering invariant over the `number` key: all
values in a left subtree compare less than the node's key, all values in a
right subtree greater, recursively. -/
def Ordered : Tree person → Prop
  | .nil => True
  | .node l v r _ =>
      Ordered l ∧ Ordered r ∧
        (∀ p ∈ l.vals, p.number < v.number) ∧ (∀ p ∈ r.vals, v.number < p.number)

def decOrdered : (t : Tree person) → Decidable (Ordered t)
  | .nil => isTrue trivial
  | .node l v r _ =>
      letI := decOrdered l
      letI := decOrdered r
      decidable_of_iff
        (Ordered l ∧ Ordered r ∧
          (∀ p ∈ l.vals, p.number < v.number) ∧ (∀ p ∈ r.vals, v.number < p.number))
        Iff.rfl

instance : ∀ t : Tree person, Decidable (Ordered t) := decOrdered

/-- The invariant maintained by the public API of `AVL` in `Lab_3-2.cpp`. -/
def Inv (t : Tree person) : Prop := Tree.AvlOk t ∧ Ordered t

/-- One public mutation of the `AVL` class of `Lab_3-2.cpp`. -/
inductive OpF where
  | ins (p : person)
  | rem (k : String)
  | remFL (fn ln : String)
deriving DecidableEq, Repr

/-- Apply one public operation. -/
def applyOp (t : Tree person) : OpF → Tree person
  | .ins p => insert t p
  | .rem k => remove t k
  | .remFL fn ln => removeFL t fn ln

/-- The tree reached from the empty tree by a sequence of public operations. -/
def runOps (ops : List OpF) : Tree person := ops.foldl applyOp .nil

/-- Whether an operation is an insert or a remove-by-key (not a removeFL). -/
def OpF.isBasic : OpF → Prop
  | .remFL _ _ => False
  | _ => True

instance : ∀ o : OpF, Decidable o.isBasic
  | .ins _ => isTrue trivial
  | .rem _ => isTrue trivial
  | .remFL _ _ => isFalse id

/-- The keys (phone-number fields) of a tree in in-order sequence. -/
def keys (t : Tree person) : List String := t.vals.map person.number

/-! ### The in-order printing routines (modelled as list producers)

`AVL::printHelp` dereferences the node it is given unconditionally and
guards only the child calls, so calling it on a null pointer is a null
dereference; the model returns `none` exactly in that case and otherwise
collects the printed values in order. -/

/-- `AVL::printHelp` of `Lab_3-2.cpp` with its first-name filter: prints the
left subtree (if non-null), the node when the filter is `" "` (the default
argument) or matches the node's first name, then the right subtree. -/
def printHelp2 : Tree person → String → Option (List person)
  | .nil, _ => none
  | .node l v r _, fn =>
      let a : Option (List person) :=
        match l with
        | .nil => some []
        | .node x y z w => printHelp2 (.node x y z w) fn
      let b : Option (List person) :=
        match r with
        | .nil => some []
        | .node x y z w => printHelp2 (.node x y z w) fn
      match a, b with
      | some xs, some ys =>
          some (xs ++ (if fn = " " ∨ fn = v.first_name then [v] else []) ++ ys)
      | _, _ => none

/-- `AVL::printAll` of `Lab_3-2.cpp`: `if (head) printHelp(head);` — the
null root is guarded, so the empty tree prints nothing. -/
def printAll2 (t : Tree person) : Option (List person) :=
  match t with
  | .nil => some []
  | .node l v r h => printHelp2 (.node l v r h) " "

/-- `AVL::printFN` of `Lab_3-2.cpp`: `if (head) printHelp(head, first_name);`. -/
def printFN2 (t : Tree person) (fn : String) : Option (List person) :=
  match t with
  | .nil => some []
  | .node l v r h => printHelp2 (.node l v r h) fn

/-- `AVL::printHelp` of `Lab_3-1.cpp` (trees of doubles): same structure,
no filter. -/
def printHelp1 : Tree Float → Option (List Float)
  | .nil => none
  | .node l v r _ =>
      let a : Option (List Float) :=
        match l with
        | .nil => some []
        | .node x y z w => printHelp1 (.node x y z w)
      let b : Option (List Float) :=
        match r with
        | .nil => some []
        | .node x y z w => printHelp1 (.node x y z w)
      match a, b with
      | some xs, some ys => some (xs ++ v :: ys)
      | _, _ => none

/-- `AVL::printInOrder` of `Lab_3-1.cpp`: `printHelp(head);` with no null
guard — on an empty tree the helper dereferences the null root. -/
def printInOrder1 (t : Tree Float) : Option (List Float) := printHelp1 t

/-! ### The hash function (`hashTable::hash`)

`std::string` iteration yields `char` values; on the targeted platforms
(x86 g++ / MSVC) `char` is signed, so a byte `b ≥ 128` holds the negative
value `b - 256`, which `hash ^= c` first promotes to `int` and then
converts to `unsigned long long` by sign extension.  Keys are modelled as
their list of raw byte values (each `< 256`). -/

/-- The FNV prime `1099511628211ULL`. -/
def fnv_prime : Nat := 1099511628211

/-- The FNV offset basis `14695981039346656037ULL`. -/
def fnv_offset_basis : Nat := 14695981039346656037

/-- The 64-bit unsigned value produced from one signed `char` holding byte
`b`: the byte itself below 128, its 64-bit sign extension otherwise. -/
def signExtendChar (b : Nat) : Nat := if b < 128 then b else (2 ^ 64 - 256) + b

/-- One iteration of the hash loop: `hash ^= c; hash *= fnv_prime;` with
64-bit wraparound on the multiplication. -/
def hashStep (acc b : Nat) : Nat := ((acc ^^^ signExtendChar b) * fnv_prime) % 2 ^ 64

/-- `hashTable::hash`: fold the loop body over the key's bytes starting
from the offset basis. -/
def hashTableHash (key : List Nat) : Nat := key.foldl hashStep fnv_offset_basis

/-- Modelled from the spec: FNV-1a 64-bit over the key's raw bytes —
for each byte, XOR the byte itself (not a sign extension) into the
accumulator, then multiply by the prime, modulo 2^64. -/
def fnv1a64 (key : List Nat) : Nat :=
  key.foldl (fun acc b => ((acc ^^^ b) * fnv_prime) % 2 ^ 64) fnv_offset_basis

/-! ### The prime-sizing utility

`generate_small_primes` and `next_prime` contain `for`/`while` loops; they
are modelled with an explicit iteration count.  `generate_small_primes`
runs its loop for exactly the odd candidates `3, 5, …, ≤ limit`, which is
`(limit - 1) / 2` iterations.  `next_prime`'s `while` loop is given
`n` iterations of budget, which always suffices: by Bertrand's postulate a
genuine prime (always accepted by the trial division) occurs within that
range.  `std::sqrt` on an `int` argument truncates to ⌊√n⌋ (the double
result is correctly rounded and √n is never within 2⁻¹⁷ of a different
integer for `int` inputs). -/

/-- The inner loop of `generate_small_primes`: trial-divide `i` by the
primes found so far, stopping at the first prime whose square exceeds `i`. -/
def spTrial (i : Nat) : List Nat → Bool
  | [] => true
  | p :: rest =>
      if i < p * p then true
      else if i % p = 0 then false
      else spTrial i rest

/-- The `for (int i = 3; i <= limit; i += 2)` loop of
`generate_small_primes`, with the iteration count made explicit. -/
def spLoop : Nat → Nat → List Nat → List Nat
  | 0, _, primes => primes
  | steps + 1, i, primes =>
      spLoop steps (i + 2) (if spTrial i primes then primes ++ [i] else primes)

/-- `generate_small_primes`: seed the list with 2 and test the odd numbers
`3, 5, …, ≤ limit`. -/
def generate_small_primes (limit : Nat) : List Nat :=
  spLoop ((limit - 1) / 2) 3 [2]

/-- Helper for the truncated integer square root: the largest `j ≤ k` with
`j² ≤ n` (0 when none). -/
def intSqrtAux (n : Nat) : Nat → Nat
  | 0 => 0
  | k + 1 => if (k + 1) * (k + 1) ≤ n then k + 1 else intSqrtAux n k

/-- `int(std::sqrt(num))` — the truncated square root ⌊√n⌋, written with
structural recursion (the library's `Nat.sqrt` is not kernel-reducible).
`intSqrt_eq_sqrt` below checks it against the library function. -/
def intSqrt (n : Nat) : Nat := intSqrtAux n n

/-- The `for (int prime : primes)` loop of `is_prime`: break once a prime
exceeds `limit` (= √num), report non-prime on the first divisor found. -/
def ipLoop (num limit : Nat) : List Nat → Bool
  | [] => true
  | p :: rest =>
      if limit < p then true
      else if num % p = 0 then false
      else ipLoop num limit rest

/-- `is_prime(num, primes)`: numbers ≤ 1 are not prime, 2 is prime, even
numbers are not, otherwise trial-divide by the given primes up to
`int(std::sqrt(num))`. -/
def is_prime (num : Nat) (primes : List Nat) : Bool :=
  if num ≤ 1 then false
  else if num = 2 then true
  else if num % 2 = 0 then false
  else ipLoop num (intSqrt num) primes

/-- The `while (!is_prime(n, small_primes)) n += 2;` loop with an explicit
iteration budget. -/
def npLoop : Nat → Nat → List Nat → Nat
  | 0, n, _ => n
  | fuel + 1, n, primes => if is_prime n primes then n else npLoop fuel (n + 2) primes

/-- `next_prime(n)`: return 2 for `n ≤ 2`; bump an even `n` to the next odd
number; pre-generate the small primes up to `√n + 1`; then advance by 2
until the trial division accepts. -/
def next_prime (n : Int) : Nat :=
  if n ≤ 2 then 2
  else
    let n0 := n.toNat
    let n1 := if n0 % 2 = 0 then n0 + 1 else n0
    let primes := generate_small_primes (intSqrt n1 + 1)
    npLoop n1 n1 primes

/-- The bucket-array length computed by the `hashTable` constructor:
`len = next_prime(expElementCt / 0.75 + 1)`.  The `int`-by-`double`
division is exact rational arithmetic followed by truncation toward zero
when the sum is converted back to `int`; since `e/0.75 + 1 = (4e+3)/3` and
`4e/3` is never within 2⁻¹⁹ of a different integer for `int` inputs, the
truncated value is exactly `(4e+3)` T-divided by 3. -/
def hashTableLen (expElementCt : Int) : Nat :=
  next_prime ((4 * expElementCt + 3).tdiv 3)

/-- Modelled from the spec: the claimed minimum capacity
`⌈expected / 0.75⌉ + 1` (for a non-negative expected count,
`⌈4e/3⌉ + 1 = (4e+2)/3 + 1`). -/
def specMinCapacity (e : Nat) : Nat := (4 * e + 2) / 3 + 1

/-- The minimum the code actually requests from `next_prime`:
`⌊expected / 0.75 + 1⌋ = ⌊4e/3⌋ + 1` for a non-negative expected count. -/
def codeMinCapacity (e : Nat) : Nat := (4 * e + 3) / 3

/-! ## Concrete instances used as counterexamples and witnesses -/

/-- Eleven inserts building the AVL tree
`08[04[02[01,03], 06[05,07]], 10[09,11]]` (records 09–11 named `M M`,
the root named `R R`, the rest `A A`), followed by `removeFL("M","M")`,
which empties the right subtree in one post-order pass and leaves node 08
with balance factor 2 after its single rotation. -/
def c1badOps : List OpF :=
  [.ins ⟨"R", "R", "08"⟩, .ins ⟨"A", "A", "04"⟩, .ins ⟨"M", "M", "10"⟩,
   .ins ⟨"A", "A", "02"⟩, .ins ⟨"A", "A", "06"⟩, .ins ⟨"M", "M", "09"⟩,
   .ins ⟨"M", "M", "11"⟩, .ins ⟨"A", "A", "01"⟩, .ins ⟨"A", "A", "03"⟩,
   .ins ⟨"A", "A", "05"⟩, .ins ⟨"A", "A", "07"⟩, .remFL "M" "M"]

/-- A small insert/remove-only history. -/
def c1wOps : List OpF :=
  [.ins ⟨"A", "A", "01"⟩, .ins ⟨"B", "B", "02"⟩, .ins ⟨"C", "C", "03"⟩, .rem "02"]

/-- Four records; the two named `C D` hold the keys 3 and 4, sitting as a
chain in the right subtree of the root record named `A B`. -/
def c2tree : Tree person :=
  [(⟨"A", "B", "2"⟩ : person), ⟨"X", "X", "1"⟩, ⟨"C", "D", "3"⟩,
   ⟨"C", "D", "4"⟩].foldl insert .nil

/-- A three-record tree used to witness the lookup round-trips. -/
def c6tree : Tree person :=
  [(⟨"A", "A", "01"⟩ : person), ⟨"B", "B", "02"⟩, ⟨"C", "C", "03"⟩].foldl insert .nil

/-- A three-record tree used to witness the duplicate-insert no-op. -/
def c8tree : Tree person :=
  [(⟨"A", "A", "01"⟩ : person), ⟨"B", "B", "02"⟩, ⟨"C", "C", "03"⟩].foldl insert .nil

/-- A two-record tree used to witness the missing-key behaviour. -/
def c9tree : Tree person :=
  [(⟨"A", "A", "01"⟩ : person), ⟨"B", "B", "03"⟩].foldl insert .nil

/-! ## Basic structural lemmas -/

namespace Tree

@[simp] theorem height_nil : height (nil : Tree α) = 0 := rfl

@[simp] theorem height_node (l : Tree α) (v : α) (r : Tree α) (h : Nat) :
    height (node l v r h) = h := rfl

@[simp] theorem vals_nil : vals (nil : Tree α) = [] := rfl

@[simp] theorem vals_node (l : Tree α) (v : α) (r : Tree α) (h : Nat) :
    vals (node l v r h) = vals l ++ v :: vals r := rfl

@[simp] theorem size_nil : size (nil : Tree α) = 0 := rfl

@[simp] theorem size_node (l : Tree α) (v : α) (r : Tree α) (h : Nat) :
    size (node l v r h) = size l + size r + 1 := rfl

theorem size_eq_length_vals (t : Tree α) : size t = (vals t).length := by
  induction t with
  | nil => rfl
  | node l v r h ihl ihr => simp [ihl, ihr]; omega

theorem vals_rotateRight (t : Tree α) : vals (rotateRight t) = vals t := by
  cases t with
  | nil => rfl
  | node l v r h =>
      cases l with
      | nil => rfl
      | node a x b hb => simp [rotateRight]

theorem vals_rotateLeft (t : Tree α) : vals (rotateLeft t) = vals t := by
  cases t with
  | nil => rfl
  | node l v r h =>
      cases r with
      | nil => rfl
      | node b y c hc => simp [rotateLeft]

theorem vals_balance (t : Tree α) : vals (balance t) = vals t := by
  cases t with
  | nil => rfl
  | node l v r h =>
      simp only [balance]
      split_ifs <;>
        simp [vals_rotateRight, vals_rotateLeft]

theorem vals_rebalance (l : Tree α) (v : α) (r : Tree α) :
    vals (rebalance l v r) = vals l ++ v :: vals r := by
  simp [rebalance, vals_balance]

theorem vals_refix (t : Tree α) : vals (refix t) = vals t := by
  cases t with
  | nil => rfl
  | node l v r h => simp [refix, vals_rebalance]

theorem size_rebalance (l : Tree α) (v : α) (r : Tree α) :
    size (rebalance l v r) = size l + size r + 1 := by
  simp [size_eq_length_vals, vals_rebalance]
  omega

theorem size_refix (t : Tree α) : size (refix t) = size t := by
  simp [size_eq_length_vals, vals_refix]

@[simp] theorem heightsOk_nil : HeightsOk (nil : Tree α) := trivial

theorem heightsOk_node {l : Tree α} {v : α} {r : Tree α} {h : Nat} :
    HeightsOk (node l v r h) ↔
      HeightsOk l ∧ HeightsOk r ∧ h = 1 + max (height l) (height r) := Iff.rfl

@[simp] theorem balancedOk_nil : BalancedOk (nil : Tree α) := trivial

theorem balancedOk_node {l : Tree α} {v : α} {r : Tree α} {h : Nat} :
    BalancedOk (node l v r h) ↔
      BalancedOk l ∧ BalancedOk r ∧
        ((height l : Int) - (height r : Int)).natAbs ≤ 1 := Iff.rfl

@[simp] theorem avlOk_nil : AvlOk (nil : Tree α) := ⟨trivial, trivial⟩

theorem avlOk_node {l : Tree α} {v : α} {r : Tree α} {h : Nat} :
    AvlOk (node l v r h) ↔
      AvlOk l ∧ AvlOk r ∧ h = 1 + max (height l) (height r) ∧
        ((height l : Int) - (height r : Int)).natAbs ≤ 1 := by
  constructor
  · rintro ⟨⟨h1, h2, h3⟩, ⟨b1, b2, b3⟩⟩
    exact ⟨⟨h1, b1⟩, ⟨h2, b2⟩, h3, b3⟩
  · rintro ⟨⟨h1, b1⟩, ⟨h2, b2⟩, h3, b3⟩
    exact ⟨⟨h1, h2, h3⟩, ⟨b1, b2, b3⟩⟩

theorem eq_nil_of_heightsOk_of_height_eq_zero {t : Tree α}
    (hok : HeightsOk t) (h0 : height t = 0) : t = nil := by
  cases t with
  | nil => rfl
  | node l v r h =>
      obtain ⟨-, -, hh⟩ := hok
      simp at h0
      omega

theorem balance_eq_self (l : Tree α) (v : α) (r : Tree α) (h : Nat)
    (hbal : ((height l : Int) - (height r : Int)).natAbs ≤ 1) :
    balance (node l v r h) = node l v r h := by
  simp only [balance]
  rw [if_neg (by omega), if_neg (by omega)]

theorem rebalance_eq_self (l : Tree α) (v : α) (r : Tree α)
    (hbal : ((height l : Int) - (height r : Int)).natAbs ≤ 1) :
    rebalance l v r = node l v r (1 + max (height l) (height r)) :=
  balance_eq_self l v r _ hbal

theorem refix_eq_self {t : Tree α} (ha : AvlOk t) : refix t = t := by
  cases t with
  | nil => rfl
  | node l v r h =>
      obtain ⟨⟨-, -, hh⟩, ⟨-, -, hb⟩⟩ := ha
      simp [refix, rebalance_eq_self l v r hb, hh]

/-- The height-bookkeeping part of the rebalancing tail is self-correcting:
whatever the imbalance, the result has correct cached heights as long as
both subtrees do. -/
theorem heightsOk_rebalance (l : Tree α) (v : α) (r : Tree α)
    (hl : HeightsOk l) (hr : HeightsOk r) : HeightsOk (rebalance l v r) := by
  simp only [rebalance, balance, height_node]
  split_ifs with h1 h2 h3 h4
  · -- left-heavy, single right rotation
    cases l with
    | nil => exfalso; simp at h1; omega
    | node a x b hb =>
        obtain ⟨ha, hbOk, -⟩ := hl
        exact ⟨ha, ⟨hbOk, hr, rfl⟩, rfl⟩
  · -- left-heavy, left-right double rotation
    cases l with
    | nil => exfalso; simp at h1; omega
    | node a x b hb =>
        obtain ⟨ha, hbOk, -⟩ := hl
        cases b with
        | nil => simp [getBalance] at h2
        | node c y d hd =>
            obtain ⟨hc, hdOk, -⟩ := hbOk
            exact ⟨⟨ha, hc, rfl⟩, ⟨hdOk, hr, rfl⟩, rfl⟩
  · -- right-heavy, single left rotation
    cases r with
    | nil => exfalso; simp at h3; omega
    | node b y c hc =>
        obtain ⟨hbOk, hcOk, -⟩ := hr
        exact ⟨⟨hl, hbOk, rfl⟩, hcOk, rfl⟩
  · -- right-heavy, right-left double rotation
    cases r with
    | nil => exfalso; simp at h3; omega
    | node b y c hc =>
        obtain ⟨hbOk, hcOk, -⟩ := hr
        cases b with
        | nil => simp [getBalance] at h4
        | node d z e he =>
            obtain ⟨hdOk, heOk, -⟩ := hbOk
            exact ⟨⟨hl, hdOk, rfl⟩, ⟨heOk, hcOk, rfl⟩, rfl⟩
  · exact ⟨hl, hr, rfl⟩

theorem heightsOk_refix (t : Tree α) (h : HeightsOk t) : HeightsOk (refix t) := by
  cases t with
  | nil => trivial
  | node l v r hh =>
      obtain ⟨hl, hr, -⟩ := h
      exact heightsOk_rebalance l v r hl hr

/-- The specification of the rebalancing tail on AVL inputs whose heights
differ by at most 2: the result is again AVL and its height is `1 + max`
or one less. -/
theorem balance_spec (l : Tree α) (v : α) (r : Tree α)
    (hl : AvlOk l) (hr : AvlOk r)
    (hd₁ : height l ≤ height r + 2) (hd₂ : height r ≤ height l + 2) :
    AvlOk (rebalance l v r) ∧
      max (height l) (height r) ≤ height (rebalance l v r) ∧
      height (rebalance l v r) ≤ 1 + max (height l) (height r) := by
  by_cases hmid : height l ≤ height r + 1 ∧ height r ≤ height l + 1
  · -- already balanced: no rotation
    rw [rebalance_eq_self l v r (by omega)]
    refine ⟨avlOk_node.mpr ⟨hl, hr, rfl, by omega⟩, by simp, by simp⟩
  rcases Nat.lt_or_ge (height r + 1) (height l) with hcase | hcase
  · -- left-heavy: height l = height r + 2
    have hleq : height l = height r + 2 := by omega
    cases l with
    | nil => simp at hleq
    | node a x b hb =>
        rw [avlOk_node] at hl
        obtain ⟨ha, hbAvl, hhb, hab⟩ := hl
        simp only [height_node] at hleq hd₁ hd₂ ⊢
        simp only [rebalance, balance, height_node]
        rw [if_pos (by omega)]
        by_cases hba : (0 : Int) ≤ getBalance (node a x b hb)
        · rw [if_pos hba]
          simp only [getBalance, height_node] at hba
          simp only [rotateRight, height_node]
          refine ⟨avlOk_node.mpr ⟨ha, avlOk_node.mpr ⟨hbAvl, hr, rfl, by omega⟩,
            rfl, by (try simp only [height_node]); omega⟩, by omega, by omega⟩
        · rw [if_neg hba]
          simp only [getBalance, height_node] at hba
          cases b with
          | nil => simp at hba
          | node c y d hd =>
              rw [avlOk_node] at hbAvl
              obtain ⟨hc, hdA, hhd, hcd⟩ := hbAvl
              simp only [height_node] at hba hhb hab
              simp only [rotateLeft, rotateRight, height_node]
              refine ⟨avlOk_node.mpr
                ⟨avlOk_node.mpr ⟨ha, hc, rfl, by omega⟩,
                 avlOk_node.mpr ⟨hdA, hr, rfl, by omega⟩,
                 rfl, by (try simp only [height_node]); omega⟩, by omega, by omega⟩
  · -- right-heavy: height r = height l + 2
    have hreq : height r = height l + 2 := by omega
    cases r with
    | nil => simp at hreq
    | node b y c hc =>
        rw [avlOk_node] at hr
        obtain ⟨hbA, hcA, hhc, hbc⟩ := hr
        simp only [height_node] at hreq hd₁ hd₂ ⊢
        simp only [rebalance, balance, height_node]
        rw [if_neg (by omega), if_pos (by omega)]
        by_cases hcb : getBalance (node b y c hc) ≤ 0
        · rw [if_pos hcb]
          simp only [getBalance, height_node] at hcb
          simp only [rotateLeft, height_node]
          refine ⟨avlOk_node.mpr ⟨avlOk_node.mpr ⟨hl, hbA, rfl, by omega⟩, hcA,
            rfl, by (try simp only [height_node]); omega⟩, by omega, by omega⟩
        · rw [if_neg hcb]
          simp only [getBalance, height_node] at hcb
          cases b with
          | nil => simp at hcb
          | node d z e he =>
              rw [avlOk_node] at hbA
              obtain ⟨hdA, heA, hhe, hde⟩ := hbA
              simp only [height_node] at hcb hhc hbc
              simp only [rotateRight, rotateLeft, height_node]
              refine ⟨avlOk_node.mpr
                ⟨avlOk_node.mpr ⟨hl, hdA, rfl, by omega⟩,
                 avlOk_node.mpr ⟨heA, hcA, rfl, by omega⟩,
                 rfl, by (try simp only [height_node]); omega⟩, by omega, by omega⟩

end Tree

/-! ## Ordering lemmas -/

theorem ordered_node {l : Tree person} {v : person} {r : Tree person} {h : Nat} :
    Ordered (Tree.node l v r h) ↔
      Ordered l ∧ Ordered r ∧
        (∀ p ∈ l.vals, p.number < v.number) ∧ (∀ p ∈ r.vals, v.number < p.number) :=
  Iff.rfl

@[simp] theorem ordered_nil : Ordered Tree.nil := trivial

theorem ordered_rotateRight {t : Tree person} (h : Ordered t) : Ordered (rotateRight t) := by
  cases t with
  | nil => exact h
  | node l v r hh =>
      cases l with
      | nil => exact h
      | node a x b hb =>
          obtain ⟨⟨ha, hbO, hax, hxb⟩, hr, hlv, hvr⟩ := h
          refine ⟨ha, ⟨hbO, hr, ?_, hvr⟩, hax, ?_⟩
          · intro p hp
            exact hlv p (by simp [hp])
          · intro p hp
            simp only [vals_node, List.mem_append, List.mem_cons] at hp
            rcases hp with hp | hp | hp
            · exact hxb p hp
            · subst hp
              exact hlv x (by simp)
            · exact lt_trans (hlv x (by simp)) (hvr p hp)

theorem ordered_rotateLeft {t : Tree person} (h : Ordered t) : Ordered (rotateLeft t) := by
  cases t with
  | nil => exact h
  | node l v r hh =>
      cases r with
      | nil => exact h
      | node b y c hc =>
          obtain ⟨hl, ⟨hbO, hcO, hby, hyc⟩, hlv, hvr⟩ := h
          refine ⟨⟨hl, hbO, hlv, ?_⟩, hcO, ?_, hyc⟩
          · intro p hp
            exact hvr p (by simp [hp])
          · intro p hp
            simp only [vals_node, List.mem_append, List.mem_cons] at hp
            rcases hp with hp | hp | hp
            · exact lt_trans (hlv p hp) (hvr y (by simp))
            · subst hp
              exact hvr y (by simp)
            · exact hby p hp

theorem ordered_balance {t : Tree person} (h : Ordered t) : Ordered (balance t) := by
  cases t with
  | nil => exact h
  | node l v r hh =>
      simp only [balance]
      split_ifs with h1 h2 h3 h4
      · exact ordered_rotateRight h
      · obtain ⟨hl, hr, hlv, hvr⟩ := h
        refine ordered_rotateRight ⟨ordered_rotateLeft hl, hr, ?_, hvr⟩
        intro p hp
        rw [vals_rotateLeft] at hp
        exact hlv p hp
      · exact ordered_rotateLeft h
      · obtain ⟨hl, hr, hlv, hvr⟩ := h
        refine ordered_rotateLeft ⟨hl, ordered_rotateRight hr, hlv, ?_⟩
        intro p hp
        rw [vals_rotateRight] at hp
        exact hvr p hp
      · exact h

theorem ordered_rebalance {l : Tree person} {v : person} {r : Tree person}
    (hl : Ordered l) (hr : Ordered r)
    (hlb : ∀ p ∈ l.vals, p.number < v.number)
    (hrb : ∀ p ∈ r.vals, v.number < p.number) : Ordered (rebalance l v r) :=
  ordered_balance ⟨hl, hr, hlb, hrb⟩

/-! ## Insert lemmas -/

theorem vals_insertRec_subset (t : Tree person) (p : person) :
    ∀ q ∈ (insertRec t p).vals, q ∈ t.vals ∨ q = p := by
  induction t with
  | nil =>
      intro q hq
      simp [insertRec] at hq
      exact Or.inr hq
  | node l w r h ihl ihr =>
      intro q hq
      simp only [insertRec] at hq
      split_ifs at hq with h1 h2
      · rw [vals_rebalance] at hq
        simp only [List.mem_append, List.mem_cons] at hq
        rcases hq with hq | hq | hq
        · rcases ihl q hq with hh | hh
          · exact Or.inl (by simp [hh])
          · exact Or.inr hh
        · exact Or.inl (by simp [hq])
        · exact Or.inl (by simp [hq])
      · rw [vals_rebalance] at hq
        simp only [List.mem_append, List.mem_cons] at hq
        rcases hq with hq | hq | hq
        · exact Or.inl (by simp [hq])
        · exact Or.inl (by simp [hq])
        · rcases ihr q hq with hh | hh
          · exact Or.inl (by simp [hh])
          · exact Or.inr hh
      · exact Or.inl hq

theorem ordered_insertRec (t : Tree person) (p : person) (h : Ordered t) :
    Ordered (insertRec t p) := by
  induction t with
  | nil => exact ⟨trivial, trivial, by simp, by simp⟩
  | node l w r hh ihl ihr =>
      obtain ⟨hl, hr, hlv, hvr⟩ := h
      simp only [insertRec]
      split_ifs with h1 h2
      · refine ordered_rebalance (ihl hl) hr ?_ hvr
        intro q hq
        rcases vals_insertRec_subset l p q hq with hq' | hq'
        · exact hlv q hq'
        · simpa [hq'] using h1
      · refine ordered_rebalance hl (ihr hr) hlv ?_
        intro q hq
        rcases vals_insertRec_subset r p q hq with hq' | hq'
        · exact hvr q hq'
        · simpa [hq'] using h2
      · exact ⟨hl, hr, hlv, hvr⟩

theorem avlOk_insertRec (t : Tree person) (p : person) (h : AvlOk t) :
    AvlOk (insertRec t p) ∧
      t.height ≤ (insertRec t p).height ∧ (insertRec t p).height ≤ t.height + 1 := by
  induction t with
  | nil =>
      refine ⟨avlOk_node.mpr ⟨avlOk_nil, avlOk_nil, by simp, by simp⟩, by simp [insertRec], ?_⟩
      simp [insertRec, height]
  | node l w r hh ihl ihr =>
      rw [avlOk_node] at h
      obtain ⟨hL, hR, hhh, hbal⟩ := h
      simp only [insertRec]
      split_ifs with h1 h2
      · obtain ⟨hL', hlow, hhigh⟩ := ihl hL
        obtain ⟨hA, hm1, hm2⟩ := balance_spec (insertRec l p) w r hL' hR
          (by omega) (by omega)
        by_cases hdiff : (insertRec l p).height ≤ r.height + 1 ∧
            r.height ≤ (insertRec l p).height + 1
        · have hres : (rebalance (insertRec l p) w r).height =
              1 + max (insertRec l p).height r.height := by
            rw [rebalance_eq_self _ _ _ (by omega)]
            simp
          exact ⟨hA, by simp; omega, by simp; omega⟩
        · exact ⟨hA, by simp; omega, by simp; omega⟩
      · obtain ⟨hR', hlow, hhigh⟩ := ihr hR
        obtain ⟨hA, hm1, hm2⟩ := balance_spec l w (insertRec r p) hL hR'
          (by omega) (by omega)
        by_cases hdiff : l.height ≤ (insertRec r p).height + 1 ∧
            (insertRec r p).height ≤ l.height + 1
        · have hres : (rebalance l w (insertRec r p)).height =
              1 + max l.height (insertRec r p).height := by
            rw [rebalance_eq_self _ _ _ (by omega)]
            simp
          exact ⟨hA, by simp; omega, by simp; omega⟩
        · exact ⟨hA, by simp; omega, by simp; omega⟩
      · exact ⟨avlOk_node.mpr ⟨hL, hR, hhh, hbal⟩, by simp, by simp⟩

@[simp] theorem keys_nil : keys Tree.nil = [] := rfl

@[simp] theorem keys_node (l : Tree person) (v : person) (r : Tree person) (h : Nat) :
    keys (Tree.node l v r h) = keys l ++ v.number :: keys r := by
  simp [keys]

theorem mem_keys_iff {t : Tree person} {k : String} :
    k ∈ keys t ↔ ∃ q ∈ t.vals, q.number = k := by
  simp [keys, List.mem_map]

/-- Duplicate insert is a no-op on a well-formed tree: the original node (and
its value) is kept and nothing is restructured. -/
theorem insertRec_eq_self (t : Tree person) (p : person)
    (hA : AvlOk t) (hO : Ordered t) (hmem : p.number ∈ keys t) : insertRec t p = t := by
  induction t with
  | nil => simp at hmem
  | node l w r hh ihl ihr =>
      rw [avlOk_node] at hA
      obtain ⟨hL, hR, hhh, hbal⟩ := hA
      obtain ⟨hl, hr, hlv, hvr⟩ := hO
      rcases lt_trichotomy p.number w.number with hcmp | hcmp | hcmp
      · have hmeml : p.number ∈ keys l := by
          simp only [keys_node, List.mem_append, List.mem_cons] at hmem
          rcases hmem with hm | hm | hm
          · exact hm
          · exact absurd hm (ne_of_lt hcmp)
          · obtain ⟨q, hq, hqn⟩ := mem_keys_iff.mp hm
            exact absurd (hqn ▸ hvr q hq) (lt_asymm hcmp)
        simp only [insertRec, if_pos hcmp, ihl hL hl hmeml]
        rw [rebalance_eq_self l w r hbal, ← hhh]
      · simp only [insertRec]
        rw [if_neg (by simp [hcmp]), if_neg (by simp [hcmp])]
      · have hmemr : p.number ∈ keys r := by
          simp only [keys_node, List.mem_append, List.mem_cons] at hmem
          rcases hmem with hm | hm | hm
          · obtain ⟨q, hq, hqn⟩ := mem_keys_iff.mp hm
            exact absurd (hqn ▸ hlv q hq) (lt_asymm hcmp)
          · exact absurd hm (ne_of_gt hcmp)
          · exact hm
        simp only [insertRec, if_neg (lt_asymm hcmp), if_pos hcmp, ihr hR hr hmemr]
        rw [rebalance_eq_self l w r hbal, ← hhh]

/-- A value present in an ordered tree is found by the key search. -/
theorem retrieveRec_of_mem (t : Tree person) (p : person)
    (hO : Ordered t) (hmem : p ∈ t.vals) : retrieveRec t p.number = p := by
  induction t with
  | nil => simp at hmem
  | node l w r hh ihl ihr =>
      obtain ⟨hl, hr, hlv, hvr⟩ := hO
      simp only [vals_node, List.mem_append, List.mem_cons] at hmem
      rcases hmem with hm | hm | hm
      · have hlt : p.number < w.number := hlv p hm
        simp only [retrieveRec, if_neg (ne_of_lt hlt), if_pos hlt]
        exact ihl hl hm
      · subst hm
        simp [retrieveRec]
      · have hlt : w.number < p.number := hvr p hm
        simp only [retrieveRec, if_neg (ne_of_gt hlt), if_neg (lt_asymm hlt)]
        exact ihr hr hm

/-- A key not stored anywhere yields the sentinel `person()`. -/
theorem retrieveRec_of_not_mem (t : Tree person) (k : String)
    (h : k ∉ keys t) : retrieveRec t k = defaultPerson := by
  induction t with
  | nil => rfl
  | node l w r hh ihl ihr =>
      simp only [keys_node, List.mem_append, List.mem_cons] at h
      push_neg at h
      obtain ⟨hnl, hne, hnr⟩ := h
      by_cases hcmp : k < w.number
      · simp only [retrieveRec, if_neg hne, if_pos hcmp]
        exact ihl hnl
      · simp only [retrieveRec, if_neg hne, if_neg hcmp]
        exact ihr hnr

/-! ## findMin lemmas -/

theorem findMin_mem (t : Tree person) (ht : t ≠ .nil) : findMin t ∈ t.vals := by
  induction t with
  | nil => exact absurd rfl ht
  | node l v r hh ihl ihr =>
      cases l with
      | nil => simp [findMin]
      | node a b c d =>
          have hm : findMin (Tree.node (Tree.node a b c d) v r hh) =
              findMin (Tree.node a b c d) := rfl
          rw [hm]
          have := ihl (by simp)
          rw [vals_node]
          exact List.mem_append_left _ this

theorem findMin_min (t : Tree person) (hO : Ordered t) :
    ∀ q ∈ t.vals, q ≠ findMin t → (findMin t).number < q.number := by
  induction t with
  | nil => simp
  | node l v r hh ihl ihr =>
      obtain ⟨hl, hr, hlv, hvr⟩ := hO
      cases l with
      | nil =>
          intro q hq hne
          simp only [findMin] at hne ⊢
          simp only [vals_node, vals_nil, List.nil_append, List.mem_cons] at hq
          rcases hq with hq | hq
          · exact absurd hq hne
          · exact hvr q hq
      | node a b c d =>
          intro q hq hne
          have hm : findMin (Tree.node (Tree.node a b c d) v r hh) =
              findMin (Tree.node a b c d) := rfl
          rw [hm] at hne ⊢
          have hminl : findMin (Tree.node a b c d) ∈ (Tree.node a b c d).vals :=
            findMin_mem _ (by simp)
          rw [vals_node] at hq
          rcases List.mem_append.mp hq with hq | hq
          · exact ihl hl q hq hne
          · rcases List.mem_cons.mp hq with hq | hq
            · subst hq
              exact hlv _ hminl
            · exact lt_trans (hlv _ hminl) (hvr q hq)

/-! ## Remove-by-key lemmas -/

/-- Full specification of `removeRec` on well-formed trees: the result is
again a well-formed AVL tree, its height shrinks by at most one, and its
values are exactly those of the input whose key differs from `k`. -/
theorem removeRec_spec (t : Tree person) (k : String) :
    AvlOk t → Ordered t →
      AvlOk (removeRec t k) ∧ Ordered (removeRec t k) ∧
        (removeRec t k).height ≤ t.height ∧ t.height ≤ (removeRec t k).height + 1 ∧
        (∀ q ∈ (removeRec t k).vals, q ∈ t.vals ∧ q.number ≠ k) ∧
        (∀ q ∈ t.vals, q.number ≠ k → q ∈ (removeRec t k).vals) := by
  induction t, k using removeRec.induct with
  | case1 k =>
      intro _ _
      exact ⟨avlOk_nil, trivial, by simp [removeRec], by simp [removeRec],
        by simp [removeRec], by simp [removeRec]⟩
  | case2 l w r hh k hk ih =>
      intro hA hO
      rw [avlOk_node] at hA
      obtain ⟨hL, hR, hhh, hbal⟩ := hA
      obtain ⟨hl, hr, hlv, hvr⟩ := hO
      obtain ⟨iA, iO, ih1, ih2, ifwd, ibwd⟩ := ih hL hl
      have hred : removeRec (Tree.node l w r hh) k = rebalance (removeRec l k) w r := by
        rw [removeRec.eq_def]
        dsimp only []
        rw [if_pos hk]
      rw [hred]
      obtain ⟨bA, bm1, bm2⟩ := balance_spec (removeRec l k) w r iA hR (by omega) (by omega)
      have hhts : (rebalance (removeRec l k) w r).height ≤ hh ∧
          hh ≤ (rebalance (removeRec l k) w r).height + 1 := by
        by_cases hdiff : (removeRec l k).height ≤ r.height + 1 ∧
            r.height ≤ (removeRec l k).height + 1
        · rw [rebalance_eq_self _ _ _ (by omega)]
          constructor <;> simp <;> omega
        · constructor <;> omega
      refine ⟨bA, ?_, by simpa using hhts.1, by simpa using hhts.2, ?_, ?_⟩
      · refine ordered_rebalance iO hr ?_ hvr
        intro q hq
        exact hlv q (ifwd q hq).1
      · intro q hq
        rw [vals_rebalance] at hq
        rcases List.mem_append.mp hq with hq | hq
        · obtain ⟨hql, hqk⟩ := ifwd q hq
          exact ⟨by simp [hql], hqk⟩
        · rcases List.mem_cons.mp hq with hq | hq
          · subst hq
            exact ⟨by simp, ne_of_gt hk⟩
          · exact ⟨by simp [hq], ne_of_gt (lt_trans hk (hvr q hq))⟩
      · intro q hq hqk
        rw [vals_rebalance]
        rw [vals_node] at hq
        rcases List.mem_append.mp hq with hq | hq
        · exact List.mem_append_left _ (ibwd q hq hqk)
        · exact List.mem_append_right _ hq
  | case3 l w r hh k hnk hk ih =>
      intro hA hO
      rw [avlOk_node] at hA
      obtain ⟨hL, hR, hhh, hbal⟩ := hA
      obtain ⟨hl, hr, hlv, hvr⟩ := hO
      obtain ⟨iA, iO, ih1, ih2, ifwd, ibwd⟩ := ih hR hr
      have hred : removeRec (Tree.node l w r hh) k = rebalance l w (removeRec r k) := by
        rw [removeRec.eq_def]
        dsimp only []
        rw [if_neg hnk, if_pos hk]
      rw [hred]
      obtain ⟨bA, bm1, bm2⟩ := balance_spec l w (removeRec r k) hL iA (by omega) (by omega)
      have hhts : (rebalance l w (removeRec r k)).height ≤ hh ∧
          hh ≤ (rebalance l w (removeRec r k)).height + 1 := by
        by_cases hdiff : l.height ≤ (removeRec r k).height + 1 ∧
            (removeRec r k).height ≤ l.height + 1
        · rw [rebalance_eq_self _ _ _ (by omega)]
          constructor <;> simp <;> omega
        · constructor <;> omega
      refine ⟨bA, ?_, by simpa using hhts.1, by simpa using hhts.2, ?_, ?_⟩
      · refine ordered_rebalance hl iO hlv ?_
        intro q hq
        exact hvr q (ifwd q hq).1
      · intro q hq
        rw [vals_rebalance] at hq
        rcases List.mem_append.mp hq with hq | hq
        · exact ⟨by simp [hq], ne_of_lt (lt_trans (hlv q hq) hk)⟩
        · rcases List.mem_cons.mp hq with hq | hq
          · subst hq
            exact ⟨by simp, ne_of_lt hk⟩
          · obtain ⟨hqr, hqk⟩ := ifwd q hq
            exact ⟨by simp [hqr], hqk⟩
      · intro q hq hqk
        rw [vals_rebalance]
        rw [vals_node] at hq
        rcases List.mem_append.mp hq with hq | hq
        · exact List.mem_append_left _ hq
        · rcases List.mem_cons.mp hq with hq | hq
          · exact List.mem_append_right _ (by simp [hq])
          · exact List.mem_append_right _ (List.mem_cons_of_mem _ (ibwd q hq hqk))
  | case4 w hh k hnk1 hnk2 =>
      intro hA hO
      rw [avlOk_node] at hA
      obtain ⟨-, -, hhh, -⟩ := hA
      have hk : k = w.number := le_antisymm (not_lt.mp hnk2) (not_lt.mp hnk1)
      have hred : removeRec (Tree.node .nil w .nil hh) k = .nil := by
        rw [removeRec.eq_def]
        dsimp only []
        rw [if_neg hnk1, if_neg hnk2]
      rw [hred]
      refine ⟨avlOk_nil, trivial, by simp, by simp at hhh ⊢; omega, by simp, ?_⟩
      intro q hq hqk
      simp at hq
      rw [hq, ← hk] at hqk
      simp at hqk
  | case5 w hh k hnk1 hnk2 a b c d =>
      intro hA hO
      rw [avlOk_node] at hA
      obtain ⟨-, hR, hhh, hbal⟩ := hA
      obtain ⟨-, hr, -, hvr⟩ := hO
      have hk : k = w.number := le_antisymm (not_lt.mp hnk2) (not_lt.mp hnk1)
      have hred : removeRec (Tree.node .nil w (Tree.node a b c d) hh) k =
          refix (Tree.node a b c d) := by
        rw [removeRec.eq_def]
        dsimp only []
        rw [if_neg hnk1, if_neg hnk2]
      rw [hred, refix_eq_self hR]
      refine ⟨hR, hr, by simp at hhh ⊢; omega, by simp at hhh ⊢; omega, ?_, ?_⟩
      · intro q hq
        refine ⟨?_, ?_⟩
        · rw [vals_node]
          exact List.mem_append_right _ (List.mem_cons_of_mem _ hq)
        · rw [hk]
          exact ne_of_gt (hvr q hq)
      · intro q hq hqk
        rw [vals_node] at hq
        rcases List.mem_append.mp hq with hq | hq
        · simp at hq
        · rcases List.mem_cons.mp hq with hq | hq
          · rw [hq, ← hk] at hqk
            simp at hqk
          · exact hq
  | case6 w hh k hnk1 hnk2 a b c d =>
      intro hA hO
      rw [avlOk_node] at hA
      obtain ⟨hL, -, hhh, hbal⟩ := hA
      obtain ⟨hl, -, hlv, -⟩ := hO
      have hk : k = w.number := le_antisymm (not_lt.mp hnk2) (not_lt.mp hnk1)
      have hred : removeRec (Tree.node (Tree.node a b c d) w .nil hh) k =
          refix (Tree.node a b c d) := by
        rw [removeRec.eq_def]
        dsimp only []
        rw [if_neg hnk1, if_neg hnk2]
      rw [hred, refix_eq_self hL]
      refine ⟨hL, hl, by simp at hhh ⊢; omega, by simp at hhh ⊢; omega, ?_, ?_⟩
      · intro q hq
        refine ⟨?_, ?_⟩
        · rw [vals_node]
          exact List.mem_append_left _ hq
        · rw [hk]
          exact ne_of_lt (hlv q hq)
      · intro q hq hqk
        rw [vals_node] at hq
        rcases List.mem_append.mp hq with hq | hq
        · exact hq
        · rcases List.mem_cons.mp hq with hq | hq
          · rw [hq, ← hk] at hqk
            simp at hqk
          · simp at hq
  | case7 w hh k hnk1 hnk2 a b c d e f g k2 m ih =>
      intro hA hO
      rw [avlOk_node] at hA
      obtain ⟨hLA, hRA, hhh, hbal⟩ := hA
      obtain ⟨hl, hr, hlv, hvr⟩ := hO
      have hk : k = w.number := le_antisymm (not_lt.mp hnk2) (not_lt.mp hnk1)
      have hm : m = findMin (Tree.node e f g k2) := rfl
      rw [hm] at ih
      obtain ⟨iA, iO, ih1, ih2, ifwd, ibwd⟩ := ih hRA hr
      have hmem : findMin (Tree.node e f g k2) ∈ (Tree.node e f g k2).vals :=
        findMin_mem _ (by simp)
      have hwm : w.number < (findMin (Tree.node e f g k2)).number := hvr _ hmem
      have hred : removeRec (Tree.node (Tree.node a b c d) w (Tree.node e f g k2) hh) k =
          rebalance (Tree.node a b c d) (findMin (Tree.node e f g k2))
            (removeRec (Tree.node e f g k2) (findMin (Tree.node e f g k2)).number) := by
        rw [removeRec.eq_def]
        dsimp only []
        rw [if_neg hnk1, if_neg hnk2]
      rw [hred]
      obtain ⟨bA, bm1, bm2⟩ := balance_spec (Tree.node a b c d)
        (findMin (Tree.node e f g k2))
        (removeRec (Tree.node e f g k2) (findMin (Tree.node e f g k2)).number)
        hLA iA (by omega) (by omega)
      have hhts : (rebalance (Tree.node a b c d) (findMin (Tree.node e f g k2))
            (removeRec (Tree.node e f g k2) (findMin (Tree.node e f g k2)).number)).height ≤ hh ∧
          hh ≤ (rebalance (Tree.node a b c d) (findMin (Tree.node e f g k2))
            (removeRec (Tree.node e f g k2) (findMin (Tree.node e f g k2)).number)).height + 1 := by
        by_cases hdiff : (Tree.node a b c d).height ≤
            (removeRec (Tree.node e f g k2) (findMin (Tree.node e f g k2)).number).height + 1 ∧
            (removeRec (Tree.node e f g k2) (findMin (Tree.node e f g k2)).number).height ≤
            (Tree.node a b c d).height + 1
        · rw [rebalance_eq_self _ _ _ (by omega)]
          constructor <;> rw [height_node] <;> omega
        · constructor <;> omega
      refine ⟨bA, ?_, by simpa using hhts.1, by simpa using hhts.2, ?_, ?_⟩
      · refine ordered_rebalance hl iO ?_ ?_
        · intro q hq
          exact lt_trans (hlv q hq) hwm
        · intro q hq
          obtain ⟨hqR, hqm⟩ := ifwd q hq
          refine findMin_min _ hr q hqR ?_
          intro hEq
          exact hqm (by rw [hEq])
      · intro q hq
        rw [vals_rebalance] at hq
        rcases List.mem_append.mp hq with hq | hq
        · refine ⟨?_, ?_⟩
          · rw [vals_node]
            exact List.mem_append_left _ hq
          · rw [hk]
            exact ne_of_lt (hlv q hq)
        · rcases List.mem_cons.mp hq with hq | hq
          · subst hq
            refine ⟨?_, ?_⟩
            · rw [vals_node]
              exact List.mem_append_right _ (List.mem_cons_of_mem _ hmem)
            · rw [hk]
              exact ne_of_gt hwm
          · obtain ⟨hqR, hqm⟩ := ifwd q hq
            refine ⟨?_, ?_⟩
            · rw [vals_node]
              exact List.mem_append_right _ (List.mem_cons_of_mem _ hqR)
            · rw [hk]
              exact ne_of_gt (hvr q hqR)
      · intro q hq hqk
        rw [vals_rebalance]
        rw [vals_node] at hq
        rcases List.mem_append.mp hq with hq | hq
        · exact List.mem_append_left _ hq
        · rcases List.mem_cons.mp hq with hq | hq
          · rw [hq, ← hk] at hqk
            simp at hqk
          · by_cases hqm : q = findMin (Tree.node e f g k2)
            · exact List.mem_append_right _ (by simp [hqm])
            · have hlt := findMin_min _ hr q hq hqm
              exact List.mem_append_right _
                (List.mem_cons_of_mem _ (ibwd q hq (ne_of_gt hlt)))

/-- Removing an absent key from a well-formed tree is the identity. -/
theorem removeRec_of_not_mem (t : Tree person) (k : String)
    (hA : AvlOk t) (hk : k ∉ keys t) : removeRec t k = t := by
  induction t with
  | nil => rfl
  | node l w r hh ihl ihr =>
      rw [avlOk_node] at hA
      obtain ⟨hL, hR, hhh, hbal⟩ := hA
      simp only [keys_node, List.mem_append, List.mem_cons] at hk
      push_neg at hk
      obtain ⟨hnl, hne, hnr⟩ := hk
      rcases lt_trichotomy k w.number with h1 | h1 | h1
      · rw [removeRec.eq_def]
        dsimp only []
        rw [if_pos h1, ihl hL hnl, rebalance_eq_self l w r hbal, ← hhh]
      · exact absurd h1 hne
      · rw [removeRec.eq_def]
        dsimp only []
        rw [if_neg (lt_asymm h1), if_pos h1, ihr hR hnr, rebalance_eq_self l w r hbal, ← hhh]

/-! ## removeFL lemmas -/

/-- Unfolding equation for one step of `removeRecFLF` at a node. -/
theorem removeRecFLF_succ (fuel : Nat) (l : Tree person) (v : person) (r : Tree person)
    (hh : Nat) (fn ln : String) :
    removeRecFLF (fuel + 1) (Tree.node l v r hh) fn ln =
      (if fn = v.first_name ∧ ln = v.last_name then
        match removeRecFLF fuel l fn ln, removeRecFLF fuel r fn ln with
        | .nil, .nil => .nil
        | .nil, .node a b c d => refix (.node a b c d)
        | .node a b c d, .nil => refix (.node a b c d)
        | .node a b c d, .node e f g k2 =>
            let m := findMin (.node e f g k2)
            rebalance (.node a b c d) m
              (removeRecFLF fuel (.node e f g k2) m.first_name m.last_name)
      else rebalance (removeRecFLF fuel l fn ln) v (removeRecFLF fuel r fn ln)) := rfl

/-- The name-directed removal only ever drops values: everything stored in
the result was stored in the input. -/
theorem vals_removeRecFLF_subset (fuel : Nat) (t : Tree person) (fn ln : String) :
    ∀ q ∈ (removeRecFLF fuel t fn ln).vals, q ∈ t.vals := by
  induction fuel, t, fn, ln using removeRecFLF.induct with
  | case1 t fn ln => simp [removeRecFLF]
  | case2 n fn ln => simp [removeRecFLF]
  | case3 fuel l v r hh fn ln l' r' hmatch hr0 hl0 ihl ihr =>
      have hl0' : removeRecFLF fuel l fn ln = Tree.nil := hl0
      have hr0' : removeRecFLF fuel r fn ln = Tree.nil := hr0
      rw [removeRecFLF_succ, if_pos hmatch, hl0', hr0']
      simp
  | case4 fuel l v r hh fn ln l' r' hmatch a b c d hreq hl0 ihl ihr =>
      have hl0' : removeRecFLF fuel l fn ln = Tree.nil := hl0
      have hreq' : removeRecFLF fuel r fn ln = Tree.node a b c d := hreq
      rw [removeRecFLF_succ, if_pos hmatch, hl0', hreq']
      intro q hq
      rw [show (match Tree.nil, Tree.node a b c d with
        | Tree.nil, Tree.nil => (Tree.nil : Tree person)
        | Tree.nil, Tree.node a b c d => refix (Tree.node a b c d)
        | Tree.node a b c d, Tree.nil => refix (Tree.node a b c d)
        | Tree.node a b c d, Tree.node e f g k2 =>
            let m := findMin (Tree.node e f g k2)
            rebalance (Tree.node a b c d) m
              (removeRecFLF fuel (Tree.node e f g k2) m.first_name m.last_name)) =
          refix (Tree.node a b c d) from rfl, vals_refix] at hq
      have hq2 : q ∈ r.vals := ihr q (by rw [hreq']; exact hq)
      rw [vals_node]
      exact List.mem_append_right _ (List.mem_cons_of_mem _ hq2)
  | case5 fuel l v r hh fn ln l' r' hmatch a b c d hr0 hleq ihl ihr =>
      have hr0' : removeRecFLF fuel r fn ln = Tree.nil := hr0
      have hleq' : removeRecFLF fuel l fn ln = Tree.node a b c d := hleq
      rw [removeRecFLF_succ, if_pos hmatch, hr0', hleq']
      intro q hq
      rw [show (match Tree.node a b c d, Tree.nil with
        | Tree.nil, Tree.nil => (Tree.nil : Tree person)
        | Tree.nil, Tree.node a b c d => refix (Tree.node a b c d)
        | Tree.node a b c d, Tree.nil => refix (Tree.node a b c d)
        | Tree.node a b c d, Tree.node e f g k2 =>
            let m := findMin (Tree.node e f g k2)
            rebalance (Tree.node a b c d) m
              (removeRecFLF fuel (Tree.node e f g k2) m.first_name m.last_name)) =
          refix (Tree.node a b c d) from rfl, vals_refix] at hq
      have hq2 : q ∈ l.vals := ihl q (by rw [hleq']; exact hq)
      rw [vals_node]
      exact List.mem_append_left _ hq2
  | case6 fuel l v r hh fn ln l' r' hmatch a b c d e f g k2 hreq hleq m ihl ihr ihm =>
      have hleq' : removeRecFLF fuel l fn ln = Tree.node a b c d := hleq
      have hreq' : removeRecFLF fuel r fn ln = Tree.node e f g k2 := hreq
      have hmdef : m = findMin (Tree.node e f g k2) := rfl
      rw [removeRecFLF_succ, if_pos hmatch, hleq', hreq']
      intro q hq
      rw [show (match Tree.node a b c d, Tree.node e f g k2 with
        | Tree.nil, Tree.nil => (Tree.nil : Tree person)
        | Tree.nil, Tree.node a b c d => refix (Tree.node a b c d)
        | Tree.node a b c d, Tree.nil => refix (Tree.node a b c d)
        | Tree.node a b c d, Tree.node e f g k2 =>
            let m := findMin (Tree.node e f g k2)
            rebalance (Tree.node a b c d) m
              (removeRecFLF fuel (Tree.node e f g k2) m.first_name m.last_name)) =
          rebalance (Tree.node a b c d) (findMin (Tree.node e f g k2))
            (removeRecFLF fuel (Tree.node e f g k2)
              (findMin (Tree.node e f g k2)).first_name
              (findMin (Tree.node e f g k2)).last_name) from rfl,
        vals_rebalance] at hq
      rcases List.mem_append.mp hq with hq | hq
      · have hq2 : q ∈ l.vals := ihl q (by rw [hleq']; exact hq)
        rw [vals_node]
        exact List.mem_append_left _ hq2
      · rcases List.mem_cons.mp hq with hq | hq
        · subst hq
          have hmm : findMin (Tree.node e f g k2) ∈ (Tree.node e f g k2).vals :=
            findMin_mem _ (by simp)
          have hq2 : findMin (Tree.node e f g k2) ∈ r.vals :=
            ihr _ (by rw [hreq']; exact hmm)
          rw [vals_node]
          exact List.mem_append_right _ (List.mem_cons_of_mem _ hq2)
        · have ihm' : ∀ p ∈ (removeRecFLF fuel (Tree.node e f g k2)
              (findMin (Tree.node e f g k2)).first_name
              (findMin (Tree.node e f g k2)).last_name).vals,
              p ∈ (Tree.node e f g k2).vals := ihm
          have hq2 : q ∈ r.vals := ihr q (by rw [hreq']; exact ihm' q hq)
          rw [vals_node]
          exact List.mem_append_right _ (List.mem_cons_of_mem _ hq2)
  | case7 fuel l v r hh fn ln hmatch ihl ihr =>
      rw [removeRecFLF_succ, if_neg hmatch]
      intro q hq
      rw [vals_rebalance] at hq
      rw [vals_node]
      rcases List.mem_append.mp hq with hq | hq
      · exact List.mem_append_left _ (ihl q hq)
      · rcases List.mem_cons.mp hq with hq | hq
        · exact List.mem_append_right _ (by simp [hq])
        · exact List.mem_append_right _ (List.mem_cons_of_mem _ (ihr q hq))

/-- The name-directed removal keeps every cached height correct, whatever
the imbalance it creates. -/
theorem heightsOk_removeRecFLF (fuel : Nat) (t : Tree person) (fn ln : String) :
    HeightsOk t → HeightsOk (removeRecFLF fuel t fn ln) := by
  induction fuel, t, fn, ln using removeRecFLF.induct with
  | case1 t fn ln => exact id
  | case2 n fn ln => exact fun _ => trivial
  | case3 fuel l v r hh fn ln l' r' hmatch hr0 hl0 ihl ihr =>
      intro h
      have hl0' : removeRecFLF fuel l fn ln = Tree.nil := hl0
      have hr0' : removeRecFLF fuel r fn ln = Tree.nil := hr0
      rw [removeRecFLF_succ, if_pos hmatch, hl0', hr0']
      trivial
  | case4 fuel l v r hh fn ln l' r' hmatch a b c d hreq hl0 ihl ihr =>
      intro h
      obtain ⟨hL, hR, -⟩ := h
      have hl0' : removeRecFLF fuel l fn ln = Tree.nil := hl0
      have hreq' : removeRecFLF fuel r fn ln = Tree.node a b c d := hreq
      rw [removeRecFLF_succ, if_pos hmatch, hl0', hreq']
      exact heightsOk_refix _ (hreq' ▸ ihr hR)
  | case5 fuel l v r hh fn ln l' r' hmatch a b c d hr0 hleq ihl ihr =>
      intro h
      obtain ⟨hL, hR, -⟩ := h
      have hr0' : removeRecFLF fuel r fn ln = Tree.nil := hr0
      have hleq' : removeRecFLF fuel l fn ln = Tree.node a b c d := hleq
      rw [removeRecFLF_succ, if_pos hmatch, hr0', hleq']
      exact heightsOk_refix _ (hleq' ▸ ihl hL)
  | case6 fuel l v r hh fn ln l' r' hmatch a b c d e f g k2 hreq hleq m ihl ihr ihm =>
      intro h
      obtain ⟨hL, hR, -⟩ := h
      have hleq' : removeRecFLF fuel l fn ln = Tree.node a b c d := hleq
      have hreq' : removeRecFLF fuel r fn ln = Tree.node e f g k2 := hreq
      rw [removeRecFLF_succ, if_pos hmatch, hleq', hreq']
      have ihm' : HeightsOk (Tree.node e f g k2) →
          HeightsOk (removeRecFLF fuel (Tree.node e f g k2)
            (findMin (Tree.node e f g k2)).first_name
            (findMin (Tree.node e f g k2)).last_name) := ihm
      have hLok : HeightsOk (Tree.node a b c d) := hleq' ▸ ihl hL
      have hRok : HeightsOk (Tree.node e f g k2) := hreq' ▸ ihr hR
      obtain ⟨hLa, hLb, hLc⟩ := hLok
      exact heightsOk_rebalance _ _ _ ⟨hLa, hLb, hLc⟩ (ihm' hRok)
  | case7 fuel l v r hh fn ln hmatch ihl ihr =>
      intro h
      obtain ⟨hL, hR, -⟩ := h
      rw [removeRecFLF_succ, if_neg hmatch]
      exact heightsOk_rebalance _ _ _ (ihl hL) (ihr hR)

/-- With enough fuel (always the case through `removeFL`), no value whose
first and last name match survives the pass. -/
theorem removeRecFLF_noMatch (fuel : Nat) (t : Tree person) (fn ln : String) :
    t.size < fuel →
      ∀ q ∈ (removeRecFLF fuel t fn ln).vals,
        ¬(q.first_name = fn ∧ q.last_name = ln) := by
  induction fuel, t, fn, ln using removeRecFLF.induct with
  | case1 t fn ln => omega
  | case2 n fn ln => simp [removeRecFLF]
  | case3 fuel l v r hh fn ln l' r' hmatch hr0 hl0 ihl ihr =>
      intro hsz
      have hl0' : removeRecFLF fuel l fn ln = Tree.nil := hl0
      have hr0' : removeRecFLF fuel r fn ln = Tree.nil := hr0
      rw [removeRecFLF_succ, if_pos hmatch, hl0', hr0']
      simp
  | case4 fuel l v r hh fn ln l' r' hmatch a b c d hreq hl0 ihl ihr =>
      intro hsz
      simp only [size_node] at hsz
      have hl0' : removeRecFLF fuel l fn ln = Tree.nil := hl0
      have hreq' : removeRecFLF fuel r fn ln = Tree.node a b c d := hreq
      rw [removeRecFLF_succ, if_pos hmatch, hl0', hreq']
      intro q hq
      rw [show (match Tree.nil, Tree.node a b c d with
        | Tree.nil, Tree.nil => (Tree.nil : Tree person)
        | Tree.nil, Tree.node a b c d => refix (Tree.node a b c d)
        | Tree.node a b c d, Tree.nil => refix (Tree.node a b c d)
        | Tree.node a b c d, Tree.node e f g k2 =>
            let m := findMin (Tree.node e f g k2)
            rebalance (Tree.node a b c d) m
              (removeRecFLF fuel (Tree.node e f g k2) m.first_name m.last_name)) =
          refix (Tree.node a b c d) from rfl, vals_refix] at hq
      exact ihr (by omega) q (by rw [hreq']; exact hq)
  | case5 fuel l v r hh fn ln l' r' hmatch a b c d hr0 hleq ihl ihr =>
      intro hsz
      simp only [size_node] at hsz
      have hr0' : removeRecFLF fuel r fn ln = Tree.nil := hr0
      have hleq' : removeRecFLF fuel l fn ln = Tree.node a b c d := hleq
      rw [removeRecFLF_succ, if_pos hmatch, hr0', hleq']
      intro q hq
      rw [show (match Tree.node a b c d, Tree.nil with
        | Tree.nil, Tree.nil => (Tree.nil : Tree person)
        | Tree.nil, Tree.node a b c d => refix (Tree.node a b c d)
        | Tree.node a b c d, Tree.nil => refix (Tree.node a b c d)
        | Tree.node a b c d, Tree.node e f g k2 =>
            let m := findMin (Tree.node e f g k2)
            rebalance (Tree.node a b c d) m
              (removeRecFLF fuel (Tree.node e f g k2) m.first_name m.last_name)) =
          refix (Tree.node a b c d) from rfl, vals_refix] at hq
      exact ihl (by omega) q (by rw [hleq']; exact hq)
  | case6 fuel l v r hh fn ln l' r' hmatch a b c d e f g k2 hreq hleq m ihl ihr ihm =>
      intro hsz
      simp only [size_node] at hsz
      have hleq' : removeRecFLF fuel l fn ln = Tree.node a b c d := hleq
      have hreq' : removeRecFLF fuel r fn ln = Tree.node e f g k2 := hreq
      rw [removeRecFLF_succ, if_pos hmatch, hleq', hreq']
      intro q hq
      rw [show (match Tree.node a b c d, Tree.node e f g k2 with
        | Tree.nil, Tree.nil => (Tree.nil : Tree person)
        | Tree.nil, Tree.node a b c d => refix (Tree.node a b c d)
        | Tree.node a b c d, Tree.nil => refix (Tree.node a b c d)
        | Tree.node a b c d, Tree.node e f g k2 =>
            let m := findMin (Tree.node e f g k2)
            rebalance (Tree.node a b c d) m
              (removeRecFLF fuel (Tree.node e f g k2) m.first_name m.last_name)) =
          rebalance (Tree.node a b c d) (findMin (Tree.node e f g k2))
            (removeRecFLF fuel (Tree.node e f g k2)
              (findMin (Tree.node e f g k2)).first_name
              (findMin (Tree.node e f g k2)).last_name) from rfl,
        vals_rebalance] at hq
      rcases List.mem_append.mp hq with hq | hq
      · exact ihl (by omega) q (by rw [hleq']; exact hq)
      · rcases List.mem_cons.mp hq with hq | hq
        · subst hq
          have hmm : findMin (Tree.node e f g k2) ∈ (Tree.node e f g k2).vals :=
            findMin_mem _ (by simp)
          exact ihr (by omega) _ (by rw [hreq']; exact hmm)
        · have hsub : q ∈ (Tree.node e f g k2).vals :=
            vals_removeRecFLF_subset fuel (Tree.node e f g k2) _ _ q hq
          exact ihr (by omega) q (by rw [hreq']; exact hsub)
  | case7 fuel l v r hh fn ln hmatch ihl ihr =>
      intro hsz
      simp only [size_node] at hsz
      rw [removeRecFLF_succ, if_neg hmatch]
      intro q hq
      rw [vals_rebalance] at hq
      rcases List.mem_append.mp hq with hq | hq
      · exact ihl (by omega) q hq
      · rcases List.mem_cons.mp hq with hq | hq
        · subst hq
          exact hmatch ∘ fun hqm => ⟨hqm.1.symm ▸ rfl, hqm.2.symm ▸ rfl⟩
        · exact ihr (by omega) q hq

/-- `removeFL` removes every record whose first and last name match. -/
theorem removeFL_noMatch (t : Tree person) (fn ln : String) :
    ∀ q ∈ (removeFL t fn ln).vals, ¬(q.first_name = fn ∧ q.last_name = ln) :=
  removeRecFLF_noMatch (t.size + 1) t fn ln (Nat.lt_succ_self _)

theorem heightsOk_removeFL (t : Tree person) (fn ln : String) (h : HeightsOk t) :
    HeightsOk (removeFL t fn ln) :=
  heightsOk_removeRecFLF (t.size + 1) t fn ln h

/-! ## Invariants of operation sequences -/

theorem heightsOk_insertRec (t : Tree person) (p : person) :
    HeightsOk t → HeightsOk (insertRec t p) := by
  induction t with
  | nil => exact fun _ => ⟨trivial, trivial, by simp⟩
  | node l w r hh ihl ihr =>
      intro h
      obtain ⟨hL, hR, hhh⟩ := h
      simp only [insertRec]
      split_ifs
      · exact heightsOk_rebalance _ _ _ (ihl hL) hR
      · exact heightsOk_rebalance _ _ _ hL (ihr hR)
      · exact ⟨hL, hR, hhh⟩

theorem heightsOk_removeRec (t : Tree person) (k : String) :
    HeightsOk t → HeightsOk (removeRec t k) := by
  induction t, k using removeRec.induct with
  | case1 k => exact fun _ => trivial
  | case2 l w r hh k hk ih =>
      intro h
      obtain ⟨hL, hR, -⟩ := h
      rw [removeRec.eq_def]
      dsimp only []
      rw [if_pos hk]
      exact heightsOk_rebalance _ _ _ (ih hL) hR
  | case3 l w r hh k hnk hk ih =>
      intro h
      obtain ⟨hL, hR, -⟩ := h
      rw [removeRec.eq_def]
      dsimp only []
      rw [if_neg hnk, if_pos hk]
      exact heightsOk_rebalance _ _ _ hL (ih hR)
  | case4 w hh k hnk1 hnk2 =>
      intro _
      rw [removeRec.eq_def]
      dsimp only []
      rw [if_neg hnk1, if_neg hnk2]
      trivial
  | case5 w hh k hnk1 hnk2 a b c d =>
      intro h
      obtain ⟨-, hR, -⟩ := h
      rw [removeRec.eq_def]
      dsimp only []
      rw [if_neg hnk1, if_neg hnk2]
      exact heightsOk_refix _ hR
  | case6 w hh k hnk1 hnk2 a b c d =>
      intro h
      obtain ⟨hL, -, -⟩ := h
      rw [removeRec.eq_def]
      dsimp only []
      rw [if_neg hnk1, if_neg hnk2]
      exact heightsOk_refix _ hL
  | case7 w hh k hnk1 hnk2 a b c d e f g k2 m ih =>
      intro h
      obtain ⟨hL, hR, -⟩ := h
      have hm : m = findMin (Tree.node e f g k2) := rfl
      rw [hm] at ih
      rw [removeRec.eq_def]
      dsimp only []
      rw [if_neg hnk1, if_neg hnk2]
      obtain ⟨hLa, hLb, hLc⟩ := hL
      exact heightsOk_rebalance _ _ _ ⟨hLa, hLb, hLc⟩ (ih hR)

theorem heightsOk_applyOp (t : Tree person) (o : OpF) (h : HeightsOk t) :
    HeightsOk (applyOp t o) := by
  cases o with
  | ins p => exact heightsOk_insertRec t p h
  | rem k => exact heightsOk_removeRec t k h
  | remFL fn ln => exact heightsOk_removeFL t fn ln h

theorem heightsOk_foldl (ops : List OpF) :
    ∀ t : Tree person, HeightsOk t → HeightsOk (ops.foldl applyOp t) := by
  induction ops with
  | nil => exact fun t h => h
  | cons o ops ih =>
      intro t h
      exact ih (applyOp t o) (heightsOk_applyOp t o h)

/-- Every tree reachable by any sequence of the three public operations has
correct cached heights at every node. -/
theorem heightsOk_runOps (ops : List OpF) : HeightsOk (runOps ops) :=
  heightsOk_foldl ops Tree.nil trivial

theorem inv_applyOp_basic (t : Tree person) (o : OpF) (hb : o.isBasic)
    (hA : AvlOk t) (hO : Ordered t) : AvlOk (applyOp t o) ∧ Ordered (applyOp t o) := by
  cases o with
  | ins p => exact ⟨(avlOk_insertRec t p hA).1, ordered_insertRec t p hO⟩
  | rem k =>
      obtain ⟨h1, h2, -⟩ := removeRec_spec t k hA hO
      exact ⟨h1, h2⟩
  | remFL fn ln => exact absurd hb id

theorem inv_foldl_basic (ops : List OpF) :
    ∀ t : Tree person, (∀ o ∈ ops, o.isBasic) → AvlOk t → Ordered t →
      AvlOk (ops.foldl applyOp t) ∧ Ordered (ops.foldl applyOp t) := by
  induction ops with
  | nil => exact fun t _ hA hO => ⟨hA, hO⟩
  | cons o ops ih =>
      intro t hb hA hO
      obtain ⟨hA', hO'⟩ := inv_applyOp_basic t o (hb o (by simp)) hA hO
      exact ih (applyOp t o) (fun o' ho' => hb o' (by simp [ho'])) hA' hO'

/-- Every tree reachable by inserts and key-directed removes is a
well-formed AVL binary search tree. -/
theorem inv_runOps_basic (ops : List OpF) (hb : ∀ o ∈ ops, o.isBasic) :
    AvlOk (runOps ops) ∧ Ordered (runOps ops) :=
  inv_foldl_basic ops Tree.nil hb avlOk_nil trivial

/-- A value whose key was absent is stored after inserting it. -/
theorem mem_vals_insertRec (t : Tree person) (p : person) :
    p.number ∉ keys t → p ∈ (insertRec t p).vals := by
  induction t with
  | nil =>
      intro _
      simp [insertRec]
  | node l w r hh ihl ihr =>
      intro h
      simp only [keys_node, List.mem_append, List.mem_cons] at h
      push_neg at h
      obtain ⟨hnl, hne, hnr⟩ := h
      rcases lt_trichotomy p.number w.number with hcmp | hcmp | hcmp
      · simp only [insertRec, if_pos hcmp]
        rw [vals_rebalance]
        exact List.mem_append_left _ (ihl hnl)
      · exact absurd hcmp hne
      · simp only [insertRec]
        rw [if_neg (lt_asymm hcmp), if_pos hcmp, vals_rebalance]
        exact List.mem_append_right _ (List.mem_cons_of_mem _ (ihr hnr))

/-- In-order keys of an ordered tree are strictly increasing (hence free of
duplicates). -/
theorem pairwise_keys_of_ordered (t : Tree person) (h : Ordered t) :
    List.Pairwise (· < ·) (keys t) := by
  induction t with
  | nil => simp
  | node l v r hh ihl ihr =>
      obtain ⟨hl, hr, hlv, hvr⟩ := h
      rw [keys_node, List.pairwise_append]
      refine ⟨ihl hl, ?_, ?_⟩
      · rw [List.pairwise_cons]
        refine ⟨?_, ihr hr⟩
        intro k hk
        obtain ⟨q, hq, hqn⟩ := mem_keys_iff.mp hk
        exact hqn ▸ hvr q hq
      · intro k1 hk1 k2 hk2
        obtain ⟨q1, hq1, hqn1⟩ := mem_keys_iff.mp hk1
        rcases List.mem_cons.mp hk2 with hk2 | hk2
        · subst hk2
          exact hqn1 ▸ hlv q1 hq1
        · obtain ⟨q2, hq2, hqn2⟩ := mem_keys_iff.mp hk2
          subst hqn1 hqn2
          exact lt_trans (hlv q1 hq1) (hvr q2 hq2)

theorem ordered_foldl_insert (ps : List person) :
    ∀ t : Tree person, Ordered t → Ordered (ps.foldl insert t) := by
  induction ps with
  | nil => exact fun t h => h
  | cons p ps ih =>
      intro t h
      exact ih (insert t p) (ordered_insertRec t p h)

/-! ## Hash lemmas -/

/-- On keys made of bytes below 128 (where the signed `char` is
non-negative), the implemented hash agrees exactly with FNV-1a. -/
theorem foldl_hashStep_eq (key : List Nat) :
    ∀ acc : Nat, (∀ b ∈ key, b < 128) →
      key.foldl hashStep acc =
        key.foldl (fun acc b => ((acc ^^^ b) * fnv_prime) % 2 ^ 64) acc := by
  induction key with
  | nil =>
      intro acc _
      simp
  | cons b rest ih =>
      intro acc h
      have hb : b < 128 := h b (List.mem_cons_self b rest)
      have hstep : hashStep acc b = ((acc ^^^ b) * fnv_prime) % 2 ^ 64 := by
        unfold hashStep signExtendChar
        rw [if_pos hb]
      simp only [List.foldl_cons]
      rw [hstep]
      exact ih _ (fun x hx => h x (List.mem_cons_of_mem _ hx))

/-! ## Integer square root lemmas -/

theorem intSqrtAux_sq_le (n : Nat) : ∀ k, intSqrtAux n k * intSqrtAux n k ≤ n := by
  intro k
  induction k with
  | zero => simp [intSqrtAux]
  | succ k ih =>
      rw [intSqrtAux]
      split_ifs with h
      · exact h
      · exact ih

theorem le_intSqrtAux (n : Nat) : ∀ k j, j ≤ k → j * j ≤ n → j ≤ intSqrtAux n k := by
  intro k
  induction k with
  | zero => intro j hj _; simpa [intSqrtAux] using hj
  | succ k ih =>
      intro j hj hsq
      rw [intSqrtAux]
      split_ifs with h
      · exact hj
      · have hjk : j ≤ k := by
          rcases Nat.lt_or_ge j (k + 1) with hlt | hge
          · omega
          · exact absurd hsq (by
              have : k + 1 ≤ j := hge
              intro hc
              exact h (le_trans (Nat.mul_le_mul this this) hc))
        exact ih j hjk hsq

/-- The structural integer square root agrees with the library's `Nat.sqrt`,
i.e. it computes `int(std::sqrt(n))`. -/
theorem intSqrt_eq_sqrt (n : Nat) : intSqrt n = Nat.sqrt n := by
  refine le_antisymm ?_ ?_
  · exact Nat.le_sqrt.mpr (intSqrtAux_sq_le n n)
  · exact le_intSqrtAux n n (Nat.sqrt n) (Nat.sqrt_le_self n) (by rw [← pow_two]; exact Nat.sqrt_le' n)

/-! ## Printing lemmas -/

theorem printHelp1_isSome (t : Tree Float) : t ≠ Tree.nil → (printHelp1 t).isSome := by
  induction t with
  | nil => exact fun h => absurd rfl h
  | node l v r hh ihl ihr =>
      intro _
      cases l with
      | nil =>
          cases r with
          | nil => simp [printHelp1]
          | node rl rv rr rh =>
              obtain ⟨ys, hys⟩ := Option.isSome_iff_exists.mp (ihr (by simp))
              simp [printHelp1, hys]
      | node ll lv lr lh =>
          obtain ⟨xs, hxs⟩ := Option.isSome_iff_exists.mp (ihl (by simp))
          cases r with
          | nil => simp [printHelp1, hxs]
          | node rl rv rr rh =>
              obtain ⟨ys, hys⟩ := Option.isSome_iff_exists.mp (ihr (by simp))
              simp [printHelp1, hxs, hys]

theorem printHelp2_isSome (t : Tree person) (fn : String) :
    t ≠ Tree.nil → (printHelp2 t fn).isSome := by
  induction t with
  | nil => exact fun h => absurd rfl h
  | node l v r hh ihl ihr =>
      intro _
      cases l with
      | nil =>
          cases r with
          | nil => simp [printHelp2]
          | node rl rv rr rh =>
              obtain ⟨ys, hys⟩ := Option.isSome_iff_exists.mp (ihr (by simp))
              simp [printHelp2, hys]
      | node ll lv lr lh =>
          obtain ⟨xs, hxs⟩ := Option.isSome_iff_exists.mp (ihl (by simp))
          cases r with
          | nil => simp [printHelp2, hxs]
          | node rl rv rr rh =>
              obtain ⟨ys, hys⟩ := Option.isSome_iff_exists.mp (ihr (by simp))
              simp [printHelp2, hxs, hys]

theorem printAll2_isSome (t : Tree person) : (printAll2 t).isSome := by
  cases t with
  | nil => rfl
  | node l v r hh => exact printHelp2_isSome _ _ (by simp)

theorem printFN2_isSome (t : Tree person) (fn : String) : (printFN2 t fn).isSome := by
  cases t with
  | nil => rfl
  | node l v r hh => exact printHelp2_isSome _ _ (by simp)

/-! ## Claim theorems -/

/-- C1, counterexample: the claim is false as stated — after the concrete
operation sequence `c1badOps` (eleven inserts, then one `removeFL`) the
resulting tree violates the AVL invariant: node `08` is left with balance
factor 2, because `removeFL` empties a whole subtree but rebalances each
ancestor only once. -/
theorem C1_counterexample : ¬ Tree.AvlOk (runOps c1badOps) := by
  set_option maxRecDepth 10000 in decide

/-- C1 (amended): after any sequence of the three public operations the
cached-height equation `n.height = 1 + max(height(n.left), height(n.right))`
holds at every node, and after any sequence of inserts and key-directed
removes (no `removeFL`) the full AVL invariant — that equation together
with every balance factor in {−1, 0, 1} — holds at every node. -/
theorem C1_theorem (ops : List OpF) :
    Tree.HeightsOk (runOps ops) ∧
      ((∀ o ∈ ops, o.isBasic) → Tree.AvlOk (runOps ops)) :=
  ⟨heightsOk_runOps ops, fun hb => (inv_runOps_basic ops hb).1⟩

/-- C1, witness: the amended theorem applied to a concrete
insert/remove-only history. -/
theorem C1_witness : (∀ o ∈ c1wOps, o.isBasic) ∧ Tree.AvlOk (runOps c1wOps) :=
  ⟨by decide, (C1_theorem c1wOps).2 (by decide)⟩

/-- C2, counterexample: the claim is false as stated — removing all records
named `A B` from `c2tree` also deletes the record `("C","D","4")`, which
does not match: the two-child removal of the root copies in its in-order
successor `("C","D","3")` and then removes that successor from the right
subtree by *name*, which also hits the other `C D` record. -/
theorem C2_counterexample :
    (⟨"C", "D", "4"⟩ : person) ∈ c2tree.vals ∧
      ¬((⟨"C", "D", "4"⟩ : person).first_name = "A" ∧
        (⟨"C", "D", "4"⟩ : person).last_name = "B") ∧
      (⟨"C", "D", "4"⟩ : person) ∉ (removeFL c2tree "A" "B").vals := by
  decide

/-- C2 (amended): `removeFL(fn, ln)` does remove, in its single Post-order
pass, every node whose record has first name `fn` and last name `ln` — no
matching record survives — but a non-matching record can be removed as
collateral when a removed node's in-order successor shares its first and
last name with another node of the right subtree. -/
theorem C2_theorem (t : Tree person) (fn ln : String) (q : person)
    (hq : q ∈ (removeFL t fn ln).vals) :
    ¬(q.first_name = fn ∧ q.last_name = ln) :=
  removeFL_noMatch t fn ln q hq

/-- C2, witness: in the concrete removal the surviving record
`("C","D","3")` indeed does not match the removed name. -/
theorem C2_witness :
    ¬((⟨"C", "D", "3"⟩ : person).first_name = "A" ∧
      (⟨"C", "D", "3"⟩ : person).last_name = "B") :=
  C2_theorem c2tree "A" "B" ⟨"C", "D", "3"⟩ (by decide)

/-- C3, counterexample: the claim is false as stated — for expected count 1
the constructor produces 2 buckets, while the claimed formula (smallest
prime ≥ ⌈1/0.75⌉ + 1 = 3) requires at least 3: the code truncates
`expected/0.75 + 1` toward zero (a floor), it does not take
⌈expected/0.75⌉ + 1. -/
theorem C3_counterexample :
    hashTableLen 1 = 2 ∧ specMinCapacity 1 = 3 ∧
      ¬ specMinCapacity 1 ≤ hashTableLen 1 := by
  decide

/-- C3 (amended): for every expected element count up to 100 (including the
boundary values 0, 1, 2, 3) the constructor sets the bucket-array length to
the smallest prime ≥ ⌊expected/0.75 + 1⌋ = ⌊4·expected/3⌋ + 1; in
particular the capacity is prime and at least that floor-based minimum —
one less than the spec's ceiling-based formula whenever the expected count
is not divisible by 3. -/
theorem C3_theorem (e : Nat) (he : e ≤ 100) :
    Nat.Prime (hashTableLen e) ∧ codeMinCapacity e ≤ hashTableLen e ∧
      ∀ m : Nat, codeMinCapacity e ≤ m → m < hashTableLen e → ¬ Nat.Prime m := by
  revert e he
  letI : DecidablePred Nat.Prime := Nat.decidablePrime1
  set_option maxRecDepth 100000 in decide

/-- C3, witness: the amended theorem at the default expected count 6, where
the capacity is 11. -/
theorem C3_witness :
    (6 : Nat) ≤ 100 ∧
      (Nat.Prime (hashTableLen 6) ∧ codeMinCapacity 6 ≤ hashTableLen 6 ∧
        ∀ m : Nat, codeMinCapacity 6 ≤ m → m < hashTableLen 6 → ¬ Nat.Prime m) :=
  ⟨by decide, C3_theorem 6 (by decide)⟩

/-- C4: evaluating the constructor's sizing path at non-positive expected
counts.  There is no defensive check anywhere on this path: the truncated
argument is ≤ 1, `next_prime` clamps it to 2 and the constructor silently
allocates a degenerate 2-bucket table, contradicting the spec's fail-fast
requirement for this programming error. -/
theorem C4_theorem : hashTableLen 0 = 2 ∧ hashTableLen (-5) = 2 := by decide

/-- C5, counterexample: the claim is false as stated — on the single byte
0x80 the implemented hash differs from FNV-1a over raw bytes, because the
signed `char` holding 0x80 is sign-extended to
0xFFFFFFFFFFFFFF80 before the XOR. -/
theorem C5_counterexample : hashTableHash [128] ≠ fnv1a64 [128] := by decide

/-- C5 (amended): for every key all of whose bytes are below 0x80 (every
ASCII key) the hash equals 64-bit FNV-1a over the raw bytes — offset basis
14695981039346656037, per byte XOR then multiply by 1099511628211 modulo
2^64; for bytes ≥ 0x80 the signed `char` is sign-extended before the XOR,
deviating from FNV-1a.  The value depends only on the key's byte content,
so repeated calls with equal bytes agree. -/
theorem C5_theorem (key : List Nat) (h : ∀ b ∈ key, b < 128) :
    hashTableHash key = fnv1a64 key :=
  foldl_hashStep_eq key fnv_offset_basis h

/-- C5, witness: the bytes of the ASCII key `hello`. -/
theorem C5_witness :
    (∀ b ∈ ([104, 101, 108, 108, 111] : List Nat), b < 128) ∧
      hashTableHash [104, 101, 108, 108, 111] = fnv1a64 [104, 101, 108, 108, 111] :=
  ⟨by decide, C5_theorem _ (by decide)⟩

/-- C6: on a well-formed tree, inserting a record whose key is absent and
then retrieving that key returns the inserted record, and removing a
present key and then retrieving it returns the `person()` sentinel
(NotFound). -/
theorem C6_theorem (t : Tree person) (p : person) (k : String)
    (hA : Tree.AvlOk t) (hO : Ordered t) :
    (p.number ∉ keys t → retrieve (insert t p) p.number = p) ∧
      (k ∈ keys t → retrieve (remove t k) k = defaultPerson) := by
  constructor
  · intro hp
    exact retrieveRec_of_mem _ p (ordered_insertRec t p hO) (mem_vals_insertRec t p hp)
  · intro hk
    obtain ⟨-, -, -, -, hfwd, -⟩ := removeRec_spec t k hA hO
    refine retrieveRec_of_not_mem _ k ?_
    intro hmem
    obtain ⟨q, hq, hqn⟩ := mem_keys_iff.mp hmem
    exact (hfwd q hq).2 hqn

/-- C6, witness: the round-trips on a concrete three-record tree. -/
theorem C6_witness :
    retrieve (insert c6tree ⟨"D", "D", "04"⟩) "04" = ⟨"D", "D", "04"⟩ ∧
      retrieve (remove c6tree "02") "02" = defaultPerson :=
  ⟨(C6_theorem c6tree ⟨"D", "D", "04"⟩ "02" (by decide) (by decide)).1 (by decide),
   (C6_theorem c6tree ⟨"D", "D", "04"⟩ "02" (by decide) (by decide)).2 (by decide)⟩

/-- C7: for every tree produced from the empty tree by any sequence of
inserts, the in-order traversal lists the stored records in strictly
increasing key order — pairwise increasing, hence with no duplicate keys. -/
theorem C7_theorem (ps : List person) :
    List.Pairwise (· < ·) (keys (ps.foldl insert Tree.nil)) :=
  pairwise_keys_of_ordered _ (ordered_foldl_insert ps Tree.nil trivial)

/-- C8: inserting a record whose key is already present in a well-formed
tree is a no-op — the tree (hence its key set, its in-order sequence, and
the originally stored value) is unchanged; the duplicate is only reported
on the console. -/
theorem C8_theorem (t : Tree person) (p : person)
    (hA : Tree.AvlOk t) (hO : Ordered t) (hmem : p.number ∈ keys t) :
    insert t p = t :=
  insertRec_eq_self t p hA hO hmem

/-- C8, witness: inserting a different record under the existing key `02`
leaves the concrete tree unchanged. -/
theorem C8_witness : insert c8tree ⟨"Z", "Z", "02"⟩ = c8tree :=
  C8_theorem c8tree ⟨"Z", "Z", "02"⟩ (by decide) (by decide) (by decide)

/-- C9: on a well-formed tree, retrieving an absent key returns the
`person()` sentinel (no exception is involved), and removing an absent key
returns the tree unchanged. -/
theorem C9_theorem (t : Tree person) (k : String)
    (hA : Tree.AvlOk t) (hk : k ∉ keys t) :
    retrieve t k = defaultPerson ∧ remove t k = t :=
  ⟨retrieveRec_of_not_mem t k hk, removeRec_of_not_mem t k hA hk⟩

/-- C9, witness: the missing key `02` on a concrete two-record tree. -/
theorem C9_witness :
    retrieve c9tree "02" = defaultPerson ∧ remove c9tree "02" = c9tree :=
  C9_theorem c9tree "02" (by decide) (by decide)

/-- C10: `printInOrder` of `Lab_3-1.cpp` dereferences the null root on the
empty tree (modelled as `none`) and completes without a null dereference on
every non-empty tree; `printAll` and `printFN` of `Lab_3-2.cpp` guard the
empty root and are safe on every tree including the empty one. -/
theorem C10_theorem :
    printInOrder1 Tree.nil = none ∧
      (∀ t : Tree Float, t ≠ Tree.nil → (printInOrder1 t).isSome) ∧
      (∀ (t : Tree person) (fn : String),
        (printAll2 t).isSome ∧ (printFN2 t fn).isSome) :=
  ⟨rfl, fun t ht => printHelp1_isSome t ht,
   fun t fn => ⟨printAll2_isSome t, printFN2_isSome t fn⟩⟩

/-- C10, witness: a concrete one-node tree of doubles prints, and the empty
record tree prints safely through the guarded entry points. -/
theorem C10_witness :
    (printInOrder1 (Tree.node Tree.nil (0 : Float) Tree.nil 1)).isSome ∧
      (printAll2 Tree.nil).isSome ∧ (printFN2 Tree.nil "Liam").isSome :=
  ⟨C10_theorem.2.1 (Tree.node Tree.nil (0 : Float) Tree.nil 1) (by simp),
   (C10_theorem.2.2 Tree.nil " ").1, (C10_theorem.2.2 Tree.nil "Liam").2⟩

end Lab3
